import Mathlib

/-
  Verification development for the sent-sync-server repository.

  The Rust source (src/ws_app_state.rs, src/ws_handler.rs, src/ws_dto_models.rs)
  is shallowly embedded below.  Arc<Client> and Arc<Room> pointers are modelled
  by natural-number identifiers (ClientId, RoomRef) together with explicit maps
  from identifiers to the mutable cell contents; `Arc::ptr_eq` on clients and
  the `uid` equality used elsewhere coincide in this model because every client
  is allocated exactly once with a fresh identifier and a fresh uid.  The tokio
  mutexes disappear: the dispatcher processes one command at a time, so each
  command arm becomes one atomic transition of a sequential state machine.
  Operations that `.unwrap()` in Rust return `Option` here, with `none`
  standing for the panic.
-/

set_option maxHeartbeats 1000000

namespace SentSync

abbrev ClientId := Nat

abbrev RoomRef := Nat

/-- Byte length of a UTF-8 string; models Rust `String::len` (a count of
UTF-8 bytes, not of characters). -/
def rustLen (s : String) : Nat := s.data.foldl (fun n c => n + c.utf8Size) 0

/-- `RoomClient` from ws_app_state.rs: one membership entry. -/
structure RoomClient where
  client : ClientId
  owner : Bool
  admin : Bool
  deriving Repr, DecidableEq

/-- `RoomData` from ws_app_state.rs. -/
structure RoomData where
  clients : List RoomClient
  page_url : Option String
  allow_stop_due_to_video_loading : Bool
  deriving Repr, DecidableEq

/-- `Room` from ws_app_state.rs. -/
structure Room where
  room_id : String
  data : RoomData
  deriving Repr, DecidableEq

/-- `ClientData` from ws_app_state.rs: the client's mutable profile. -/
structure ClientData where
  name : Option String
  room : Option RoomRef
  deriving Repr, DecidableEq

/-- `ErrorKind` from ws_handler.rs. -/
inductive ErrorKind where
  | JsonError
  | ClientNotInAnyRoom
  | ClientNameNotSet
  | ClientNameTooShort
  | RoomIdTooShort
  | NoSuchClient
  | Forbidden
  deriving Repr, DecidableEq

/-- `RoomClientDto` from ws_dto_models.rs. -/
structure RoomClientDto where
  name : Option String
  uid : ClientId
  owner : Bool
  admin : Bool
  deriving Repr, DecidableEq

/-- `RoomDataDto` from ws_dto_models.rs. -/
structure RoomDataDto where
  clients : List RoomClientDto
  page_url : Option String
  allow_stop_due_to_video_loading : Bool
  deriving Repr, DecidableEq

/-- `OutgoingMessage` from ws_handler.rs. -/
inductive OutgoingMessage where
  | Pong
  | ClientUid (client_uid : ClientId)
  | Success
  | Error (kind : ErrorKind) (msg : Option String)
  | RoomChanged (data : RoomDataDto)
  deriving Repr, DecidableEq

/-- `IncomingMessage` from ws_handler.rs. -/
inductive IncomingMessage where
  | Ping
  | ChangeName (new_name : String)
  | JoinRoom (room_id : String)
  | ChangeClientAdminStatus (client_uid : ClientId) (admin : Bool)
  | QuitRoom
  deriving Repr, DecidableEq

/-- `Room::new` from ws_app_state.rs. -/
def Room.new (room_id : String) : Room :=
  { room_id := room_id
    data := { clients := []
              page_url := none
              allow_stop_due_to_video_loading := true } }

/-- `Room::new_with_owner` from ws_app_state.rs: the creating client is the
sole member, flagged `owner = true, admin = true`. -/
def Room.new_with_owner (room_id : String) (client : ClientId) : Room :=
  { room_id := room_id
    data := { clients := [{ client := client, owner := true, admin := true }]
              page_url := none
              allow_stop_due_to_video_loading := true } }

/-- `RoomData::add_client` from ws_app_state.rs: unconditionally pushes a
membership with `owner = false, admin = false`. -/
def RoomData.add_client (rd : RoomData) (client : ClientId) : RoomData :=
  { rd with clients := rd.clients ++ [{ client := client, owner := false, admin := false }] }

/-- Models `self.clients[0].owner = true` in `RoomData::remove_client`. -/
def promoteFirst : List RoomClient → List RoomClient
  | [] => []
  | x :: xs => { x with owner := true } :: xs

/-- Models `Iterator::position`: index of the first element satisfying `p`. -/
def positionAux (p : RoomClient → Bool) : List RoomClient → Option Nat
  | [] => none
  | x :: xs => if p x then some 0 else (positionAux p xs).map (· + 1)

/-- `RoomData::remove_client` from ws_app_state.rs: find the index of the
first membership of `client` (`.unwrap()` panics when absent, modelled by
`none`), remember whether it was owner, remove it, and if the owner left a
nonempty room, set the owner flag of the membership now at position 0. -/
def RoomData.remove_client (rd : RoomData) (client : ClientId) : Option RoomData :=
  match positionAux (fun x => x.client == client) rd.clients with
  | none => none
  | some index =>
    match rd.clients[index]? with
    | none => none
    | some entry =>
      let rest := rd.clients.eraseIdx index
      some { rd with clients := if entry.owner && !rest.isEmpty then promoteFirst rest else rest }

/-- `RoomData::find_room_client` from ws_app_state.rs. -/
def RoomData.find_room_client (rd : RoomData) (client : ClientId) : Option RoomClient :=
  rd.clients.find? (fun c => c.client == client)

/-- `RoomClient::can_control` from ws_app_state.rs. -/
def RoomClient.can_control (rc : RoomClient) : Bool := rc.owner || rc.admin

/-- `RoomData::can_control` from ws_app_state.rs. -/
def RoomData.can_control (rd : RoomData) (client : ClientId) : Bool :=
  match rd.find_room_client client with
  | some rc => rc.can_control
  | none => false

/-- Models `iter_mut().find(|rc| rc.client.uid == target)` followed by
`rc.admin = admin`: updates the admin flag of the first matching entry. -/
def setAdminFirst (target : ClientId) (admin : Bool) : List RoomClient → List RoomClient
  | [] => []
  | rc :: rest =>
    if rc.client == target then { rc with admin := admin } :: rest
    else rc :: setAdminFirst target admin rest

/-- The whole server state: the `WsAppState` registries plus the heap of
`Arc<Client>` profiles and `Arc<Room>` cells, with fresh-identifier counters
standing for allocation. -/
structure ServerState where
  clients : List ClientId
  clientData : ClientId → Option ClientData
  roomHeap : RoomRef → Option Room
  rooms : List (String × RoomRef)
  nextClient : ClientId
  nextRef : RoomRef

def initState : ServerState :=
  { clients := []
    clientData := fun _ => none
    roomHeap := fun _ => none
    rooms := []
    nextClient := 0
    nextRef := 0 }

def setClientData (s : ServerState) (c : ClientId) (d : ClientData) : ServerState :=
  { s with clientData := fun x => if x = c then some d else s.clientData x }

def setRoom (s : ServerState) (r : RoomRef) (room : Room) : ServerState :=
  { s with roomHeap := fun x => if x = r then some room else s.roomHeap x }

/-- Models `HashMap::get` on the room registry. -/
def regGet (k : String) : List (String × RoomRef) → Option RoomRef
  | [] => none
  | p :: l => if p.1 == k then some p.2 else regGet k l

/-- Models `HashMap::insert` on the room registry. -/
def regInsert (k : String) (v : RoomRef) (l : List (String × RoomRef)) : List (String × RoomRef) :=
  l.filter (fun p => !(p.1 == k)) ++ [(k, v)]

/-- Models `HashMap::remove` on the room registry. -/
def regErase (k : String) (l : List (String × RoomRef)) : List (String × RoomRef) :=
  l.filter (fun p => !(p.1 == k))

/-- `RoomClientDto::from` from ws_dto_models.rs (the name is read from the
client's current profile at broadcast time). -/
def RoomClientDto.fromState (s : ServerState) (rc : RoomClient) : RoomClientDto :=
  { name := match s.clientData rc.client with
            | some d => d.name
            | none => none
    uid := rc.client
    owner := rc.owner
    admin := rc.admin }

/-- `RoomDataDto::from` from ws_dto_models.rs. -/
def RoomDataDto.fromState (s : ServerState) (rd : RoomData) : RoomDataDto :=
  { clients := rd.clients.map (RoomClientDto.fromState s)
    page_url := rd.page_url
    allow_stop_due_to_video_loading := rd.allow_stop_due_to_video_loading }

/-- Messages produced by one transition, in send order, tagged with the
receiving client. -/
abbrev Output := List (ClientId × OutgoingMessage)

/-- `broadcast_room_change` from ws_handler.rs: sends the current snapshot to
every member of the room. -/
def broadcast_room_change (s : ServerState) (rd : RoomData) : Output :=
  rd.clients.map (fun rc => (rc.client, OutgoingMessage.RoomChanged (RoomDataDto.fromState s rd)))

/-- `handle_quit_room` from ws_handler.rs: clear the client's room reference,
remove its membership, delete the room from the registry if now empty,
otherwise broadcast to the remaining members. -/
def handle_quit_room (s : ServerState) (c : ClientId) (cd : ClientData) (rref : RoomRef) :
    Option (ServerState × Output) :=
  let s1 := setClientData s c { cd with room := none }
  match s1.roomHeap rref with
  | none => none
  | some room =>
    match room.data.remove_client c with
    | none => none
    | some rd =>
      let s2 := setRoom s1 rref { room with data := rd }
      if rd.clients.isEmpty then
        some ({ s2 with rooms := regErase room.room_id s2.rooms }, [])
      else
        some (s2, broadcast_room_change s2 rd)

/-- One iteration of the dispatcher loop in `ws_handler` for an already
decoded message, from ws_handler.rs. -/
def handleCommand (s : ServerState) (c : ClientId) : IncomingMessage → Option (ServerState × Output)
  | .Ping => some (s, [(c, .Pong)])
  | .ChangeName new_name =>
    if rustLen new_name ≤ 2 then
      some (s, [(c, .Error .ClientNameTooShort none)])
    else
      match s.clientData c with
      | none => none
      | some cd =>
        let cd1 : ClientData := { cd with name := some new_name }
        let s1 := setClientData s c cd1
        match cd1.room with
        | none => some (s1, [(c, .Success)])
        | some rref =>
          match s1.roomHeap rref with
          | none => none
          | some room => some (s1, (c, .Success) :: broadcast_room_change s1 room.data)
  | .JoinRoom room_id =>
    match s.clientData c with
    | none => none
    | some cd =>
      if cd.name.isNone then
        some (s, [(c, .Error .ClientNameNotSet none)])
      else if rustLen room_id ≤ 2 then
        some (s, [(c, .Error .RoomIdTooShort none)])
      else
        match regGet room_id s.rooms with
        | some rref =>
          match s.roomHeap rref with
          | none => none
          | some room =>
            let room1 : Room := { room with data := room.data.add_client c }
            let s1 := setRoom s rref room1
            let s2 := setClientData s1 c { cd with room := some rref }
            some (s2, (c, .Success) :: broadcast_room_change s2 room1.data)
        | none =>
          let rref := s.nextRef
          let room1 := Room.new_with_owner room_id c
          let s1 : ServerState :=
            { s with roomHeap := fun x => if x = rref then some room1 else s.roomHeap x
                     nextRef := s.nextRef + 1 }
          let s2 := setClientData s1 c { cd with room := some rref }
          let s3 : ServerState := { s2 with rooms := regInsert room_id rref s2.rooms }
          some (s3, (c, .Success) :: broadcast_room_change s2 room1.data)
  | .ChangeClientAdminStatus client_uid admin =>
    match s.clientData c with
    | none => none
    | some cd =>
      match cd.room with
      | none => some (s, [(c, .Error .ClientNotInAnyRoom none)])
      | some rref =>
        match s.roomHeap rref with
        | none => none
        | some room =>
          match room.data.clients.find? (fun rc => rc.client == c) with
          | none => none
          | some room_current_client =>
            let pre : Output :=
              if !room_current_client.owner then [(c, .Error .Forbidden none)] else []
            if room.data.clients.any (fun rc => rc.client == client_uid) then
              let rd1 : RoomData :=
                { room.data with clients := setAdminFirst client_uid admin room.data.clients }
              let s1 := setRoom s rref { room with data := rd1 }
              some (s1, pre ++ (c, .Success) :: broadcast_room_change s1 rd1)
            else
              some (s, pre ++ [(c, .Error .NoSuchClient none)])
  | .QuitRoom =>
    match s.clientData c with
    | none => none
    | some cd =>
      match cd.room with
      | none => some (s, [(c, .Error .ClientNotInAnyRoom none)])
      | some rref =>
        match handle_quit_room s c cd rref with
        | none => none
        | some (s1, out) => some (s1, out ++ [(c, .Success)])

/-- Connection establishment in `ws_handler`: allocate a fresh client, push it
onto the registry, send its uid. -/
def connectClient (s : ServerState) : ServerState × Output :=
  ({ s with clients := s.clients ++ [s.nextClient]
            clientData := fun x => if x = s.nextClient then some { name := none, room := none }
                                   else s.clientData x
            nextClient := s.nextClient + 1 },
   [(s.nextClient, .ClientUid s.nextClient)])

/-- `handle_client_disconnect` from ws_handler.rs: quit the room if in one,
then remove the client from the client registry. -/
def disconnectClient (s : ServerState) (c : ClientId) : Option (ServerState × Output) :=
  match s.clientData c with
  | none => none
  | some cd =>
    match cd.room with
    | some rref =>
      match handle_quit_room s c cd rref with
      | none => none
      | some (s1, out) => some ({ s1 with clients := s1.clients.erase c }, out)
    | none => some ({ s with clients := s.clients.erase c }, [])

inductive Event where
  | connect
  | command (c : ClientId) (msg : IncomingMessage)
  | disconnect (c : ClientId)
  deriving Repr, DecidableEq

/-- One transition of the whole server: a connection, a decoded command from a
connected client, or a disconnection. -/
def stepEvent (s : ServerState) : Event → Option (ServerState × Output)
  | .connect => some (connectClient s)
  | .command c msg => if c ∈ s.clients then handleCommand s c msg else none
  | .disconnect c => if c ∈ s.clients then disconnectClient s c else none

def runFrom (s : ServerState) : List Event → Option ServerState
  | [] => some s
  | e :: rest =>
    match stepEvent s e with
    | some (s1, _) => runFrom s1 rest
    | none => none

def runScript (evs : List Event) : Option ServerState := runFrom initState evs

/-- States reachable from the empty server. -/
inductive Reachable : ServerState → Prop where
  | init : Reachable initState
  | step {s s1 : ServerState} {e : Event} {out : Output} :
      Reachable s → stepEvent s e = some (s1, out) → Reachable s1

/-! ### Helper notions used by the invariants -/

/-- Number of memberships whose owner flag is set. -/
def ownerCount (l : List RoomClient) : Nat := l.countP (fun rc => rc.owner)

/-- The list holds a membership entry for client `c`. -/
def memClient (l : List RoomClient) (c : ClientId) : Prop := ∃ rc ∈ l, rc.client = c

/-- First-match removal, returning the removed entry's owner flag and the
remaining list: the recursive characterization of `remove_client`. -/
def removeFirstAux (client : ClientId) : List RoomClient → Option (Bool × List RoomClient)
  | [] => none
  | x :: xs =>
    if x.client == client then some (x.owner, xs)
    else (removeFirstAux client xs).map (fun p => (p.1, x :: p.2))

/-- The invariant maintained by every transition: connected clients have
profiles, identifiers are below the allocation counters, every registry entry
points at a live room whose stored id matches its key, every room in the
registry is nonempty with exactly one owner membership, a client's room
reference points at a live room that both holds a membership for the client
and is registered under its id, and room metadata never changes from its
creation values. -/
structure Inv (s : ServerState) : Prop where
  clientsHaveData : ∀ c ∈ s.clients, (s.clientData c).isSome
  clientDom : ∀ c, (s.clientData c).isSome → c < s.nextClient
  heapDom : ∀ r, (s.roomHeap r).isSome → r < s.nextRef
  regValid : ∀ id rref, regGet id s.rooms = some rref →
    ∃ room, s.roomHeap rref = some room ∧ room.room_id = id ∧
      room.data.clients ≠ [] ∧ ownerCount room.data.clients = 1
  refMember : ∀ c cd rref, s.clientData c = some cd → cd.room = some rref →
    ∃ room, s.roomHeap rref = some room ∧ memClient room.data.clients c ∧
      regGet room.room_id s.rooms = some rref
  metaInv : ∀ r room, s.roomHeap r = some room →
    room.data.page_url = none ∧ room.data.allow_stop_due_to_video_loading = true

/-! ### Concrete execution traces used to settle individual claims -/

/-- Connect a client, name it, create room "abc", connect a second client,
name it, and join "abc". -/
def evsC1 : List Event :=
  [.connect, .command 0 (.ChangeName "Alice"), .command 0 (.JoinRoom "abc"),
   .connect, .command 1 (.ChangeName "Bobby"), .command 1 (.JoinRoom "abc")]

def stC1 : ServerState := (runScript evsC1).getD initState

/-- The outcome of the non-owner client 1 trying to revoke the owner's admin
flag in `stC1`. -/
def c1res : ServerState × Output :=
  (stepEvent stC1 (.command 1 (.ChangeClientAdminStatus 0 false))).getD (initState, [])

/-- Client 0 creates room "abc" and then, while still a member of "abc",
creates room "xyz". -/
def evsC2x : List Event :=
  [.connect, .command 0 (.ChangeName "Alice"), .command 0 (.JoinRoom "abc"),
   .command 0 (.JoinRoom "xyz")]

def stC2x : ServerState := (runScript evsC2x).getD initState

/-- The agreement between client room references and room membership lists
asserted by the specification, quantified over the rooms of the registry: a
client references a registered room exactly when that room's membership list
holds an entry for it. -/
def clientRoomAgreement (s : ServerState) : Prop :=
  ∀ c cd, s.clientData c = some cd →
    ∀ p ∈ s.rooms, ∀ room, s.roomHeap p.2 = some room →
      (cd.room = some p.2 ↔ memClient room.data.clients c)

def evsC2w : List Event :=
  [.connect, .command 0 (.ChangeName "Alice"), .command 0 (.JoinRoom "abc")]

def stC2w : ServerState := (runScript evsC2w).getD initState

/-- Client 0 creates room "abc" and then joins "abc" again. -/
def evsC3x : List Event :=
  [.connect, .command 0 (.ChangeName "Alice"), .command 0 (.JoinRoom "abc"),
   .command 0 (.JoinRoom "abc")]

def stC3x : ServerState := (runScript evsC3x).getD initState

/-- At most one membership per (registered room, client) pair, as asserted by
the specification. -/
def atMostOneMembership (s : ServerState) : Prop :=
  ∀ p ∈ s.rooms, ∀ room, s.roomHeap p.2 = some room →
    ∀ c, room.data.clients.countP (fun rc => rc.client == c) ≤ 1

def evsC4w : List Event :=
  [.connect, .command 0 (.ChangeName "Alice"), .command 0 (.JoinRoom "abc")]

def stC4w : ServerState := (runScript evsC4w).getD initState

/-- The room "abc" as it stands right after client 0 created it. -/
def roomAbcSolo : Room :=
  { room_id := "abc",
    data := { clients := [{ client := 0, owner := true, admin := true }],
              page_url := none, allow_stop_due_to_video_loading := true } }

/-- The room "abc" holding two memberships for client 0, as produced by a
double join. -/
def roomAbcDup : Room :=
  { room_id := "abc",
    data := { clients := [{ client := 0, owner := true, admin := true },
                          { client := 0, owner := false, admin := false }],
              page_url := none, allow_stop_due_to_video_loading := true } }

/-- Concrete memberships for exercising `remove_client`. -/
def c5wRemoved : RoomClient := { client := 5, owner := true, admin := true }

def c5wKept : RoomClient := { client := 7, owner := false, admin := true }

def c5wRoom : RoomData :=
  { clients := [c5wRemoved, c5wKept], page_url := none,
    allow_stop_due_to_video_loading := true }

def evsC6w : List Event := [.connect, .command 0 (.ChangeName "Alice")]

def stC6w : ServerState := (runScript evsC6w).getD initState

def evsC7x : List Event := [.connect]

def stC7x : ServerState := (runScript evsC7x).getD initState

def evsC7w : List Event := [.connect]

def stC7w : ServerState := (runScript evsC7w).getD initState

def evsC8w : List Event := [.connect]

def stC8w : ServerState := (runScript evsC8w).getD initState

def evsC9w : List Event :=
  [.connect, .command 0 (.ChangeName "Alice"), .command 0 (.JoinRoom "abc")]

def stC9w : ServerState := (runScript evsC9w).getD initState

def evsC10w : List Event :=
  [.connect, .command 0 (.ChangeName "Alice"), .command 0 (.JoinRoom "abc")]

def stC10w : ServerState := (runScript evsC10w).getD initState

/-! ### General lemmas -/

theorem reachable_runFrom {s0 s : ServerState} (evs : List Event) (h0 : Reachable s0)
    (h : runFrom s0 evs = some s) : Reachable s := by
  induction evs generalizing s0 with
  | nil => simp only [runFrom, Option.some.injEq] at h; exact h ▸ h0
  | cons e rest ih =>
    simp only [runFrom] at h
    split at h
    · exact ih (Reachable.step h0 (by assumption)) h
    · exact absurd h (by simp)

theorem reachable_runScript {s : ServerState} (evs : List Event)
    (h : runScript evs = some s) : Reachable s :=
  reachable_runFrom evs Reachable.init h

theorem memClient_iff_mem_map {l : List RoomClient} {c : ClientId} :
    memClient l c ↔ c ∈ l.map (fun rc => rc.client) := by
  simp [memClient]

theorem removeFirstAux_eq_positionAux (c : ClientId) (l : List RoomClient) :
    removeFirstAux c l = (positionAux (fun x => x.client == c) l).bind
      (fun index => (l[index]?).map (fun entry => (entry.owner, l.eraseIdx index))) := by
  induction l with
  | nil => rfl
  | cons x xs ih =>
    by_cases hx : (x.client == c) = true
    · simp [positionAux, removeFirstAux, hx]
    · rw [removeFirstAux, if_neg hx, positionAux, if_neg hx]
      cases hpos : positionAux (fun x => x.client == c) xs with
      | none => rw [hpos] at ih; simp [ih]
      | some i =>
        rw [hpos] at ih
        simp only [Option.some_bind] at ih
        simp only [Option.map_some', Option.some_bind, List.getElem?_cons_succ,
          List.eraseIdx_cons_succ, ih]
        cases hget : xs[i]? with
        | none => rfl
        | some e => rfl

theorem RoomData.remove_client_eq (rd : RoomData) (c : ClientId) :
    rd.remove_client c = (removeFirstAux c rd.clients).map
      (fun p => { rd with clients := if p.1 && !p.2.isEmpty then promoteFirst p.2 else p.2 }) := by
  rw [removeFirstAux_eq_positionAux]
  unfold RoomData.remove_client
  cases positionAux (fun x => x.client == c) rd.clients with
  | none => rfl
  | some i =>
    cases hget : rd.clients[i]? with
    | none => simp [hget]
    | some e => simp [hget]

theorem removeFirstAux_decomp {c : ClientId} {l : List RoomClient} {b : Bool}
    {rest : List RoomClient} (h : removeFirstAux c l = some (b, rest)) :
    ∃ pre x suf, l = pre ++ x :: suf ∧ rest = pre ++ suf ∧ x.client = c ∧ x.owner = b ∧
      ∀ y ∈ pre, y.client ≠ c := by
  induction l generalizing b rest with
  | nil => simp [removeFirstAux] at h
  | cons x xs ih =>
    by_cases hx : (x.client == c) = true
    · rw [removeFirstAux, if_pos hx] at h
      simp only [Option.some.injEq, Prod.mk.injEq] at h
      obtain ⟨hb, hrest⟩ := h
      exact ⟨[], x, xs, rfl, by simp [← hrest], beq_iff_eq.mp hx, hb, by simp⟩
    · rw [removeFirstAux, if_neg hx] at h
      obtain ⟨⟨b', rest'⟩, hsome, hmk⟩ := Option.map_eq_some'.mp h
      simp only [Prod.mk.injEq] at hmk
      obtain ⟨hb, hrest⟩ := hmk
      subst hb
      subst hrest
      obtain ⟨pre, y, suf, hl, hr, hyc, hyo, hpre⟩ := ih hsome
      refine ⟨x :: pre, y, suf, by simp [hl], by simp [hr], hyc, hyo, ?_⟩
      intro z hz
      rcases List.mem_cons.mp hz with hz | hz
      · subst hz; exact fun hc => hx (beq_iff_eq.mpr hc)
      · exact hpre z hz

theorem removeFirstAux_isSome_of_mem {c : ClientId} {l : List RoomClient}
    (h : memClient l c) : ∃ p, removeFirstAux c l = some p := by
  induction l with
  | nil => obtain ⟨rc, hrc, _⟩ := h; simp at hrc
  | cons x xs ih =>
    by_cases hx : (x.client == c) = true
    · exact ⟨(x.owner, xs), by rw [removeFirstAux, if_pos hx]⟩
    · obtain ⟨rc, hrc, hc⟩ := h
      rcases List.mem_cons.mp hrc with hrc | hrc
      · exact absurd (beq_iff_eq.mpr (hrc ▸ hc)) hx
      · obtain ⟨p, hp⟩ := ih ⟨rc, hrc, hc⟩
        exact ⟨(p.1, x :: p.2), by rw [removeFirstAux, if_neg hx, hp]; rfl⟩

theorem removeFirstAux_ownerCount {c : ClientId} {l : List RoomClient} {b : Bool}
    {rest : List RoomClient} (h : removeFirstAux c l = some (b, rest)) :
    ownerCount l = ownerCount rest + (if b then 1 else 0) := by
  obtain ⟨pre, x, suf, hl, hr, _, hxo, _⟩ := removeFirstAux_decomp h
  subst hl hr
  simp only [ownerCount, List.countP_append, List.countP_cons, hxo]
  cases b
  · simp
  · simp only [if_true, reduceIte]
    omega

theorem removeFirstAux_memClient {c c' : ClientId} {l : List RoomClient} {b : Bool}
    {rest : List RoomClient} (h : removeFirstAux c l = some (b, rest)) (hne : c' ≠ c)
    (hm : memClient l c') : memClient rest c' := by
  obtain ⟨pre, x, suf, hl, hr, hxc, _, _⟩ := removeFirstAux_decomp h
  subst hl hr
  obtain ⟨rc, hrc, hc⟩ := hm
  rcases List.mem_append.mp hrc with hrc | hrc
  · exact ⟨rc, List.mem_append.mpr (Or.inl hrc), hc⟩
  · rcases List.mem_cons.mp hrc with hrc | hrc
    · exact absurd (hc ▸ hrc ▸ hxc) hne
    · exact ⟨rc, List.mem_append.mpr (Or.inr hrc), hc⟩

theorem promoteFirst_map_client (l : List RoomClient) :
    (promoteFirst l).map (fun rc => rc.client) = l.map (fun rc => rc.client) := by
  cases l <;> rfl

theorem promoteFirst_map_admin (l : List RoomClient) :
    (promoteFirst l).map (fun rc => rc.admin) = l.map (fun rc => rc.admin) := by
  cases l <;> rfl

theorem memClient_promoteFirst {l : List RoomClient} {c : ClientId} :
    memClient (promoteFirst l) c ↔ memClient l c := by
  rw [memClient_iff_mem_map, memClient_iff_mem_map, promoteFirst_map_client]

theorem promoteFirst_ne_nil {l : List RoomClient} (h : l ≠ []) : promoteFirst l ≠ [] := by
  cases l with
  | nil => exact absurd rfl h
  | cons x xs => simp [promoteFirst]

theorem promoteFirst_eq_nil {l : List RoomClient} (h : promoteFirst l = []) : l = [] := by
  cases l with
  | nil => rfl
  | cons x xs => simp [promoteFirst] at h

theorem ownerCount_promoteFirst {l : List RoomClient} (h0 : ownerCount l = 0) (hne : l ≠ []) :
    ownerCount (promoteFirst l) = 1 := by
  cases l with
  | nil => exact absurd rfl hne
  | cons x xs =>
    simp only [ownerCount, List.countP_cons] at h0
    simp only [promoteFirst, ownerCount, List.countP_cons]
    cases hx : x.owner
    · simp only [hx] at h0
      simp_all
    · simp only [hx] at h0
      simp_all

theorem setAdminFirst_map_client (t : ClientId) (a : Bool) (l : List RoomClient) :
    (setAdminFirst t a l).map (fun rc => rc.client) = l.map (fun rc => rc.client) := by
  induction l with
  | nil => rfl
  | cons x xs ih =>
    by_cases hx : (x.client == t) = true
    · simp [setAdminFirst, hx]
    · simp [setAdminFirst, hx, ih]

theorem ownerCount_setAdminFirst (t : ClientId) (a : Bool) (l : List RoomClient) :
    ownerCount (setAdminFirst t a l) = ownerCount l := by
  induction l with
  | nil => rfl
  | cons x xs ih =>
    by_cases hx : (x.client == t) = true
    · simp [setAdminFirst, hx, ownerCount, List.countP_cons]
    · simp only [setAdminFirst, hx, if_false, Bool.false_eq_true, ownerCount,
        List.countP_cons] at ih ⊢
      omega

theorem memClient_setAdminFirst {t c : ClientId} {a : Bool} {l : List RoomClient} :
    memClient (setAdminFirst t a l) c ↔ memClient l c := by
  rw [memClient_iff_mem_map, memClient_iff_mem_map, setAdminFirst_map_client]

theorem setAdminFirst_ne_nil {t : ClientId} {a : Bool} {l : List RoomClient} (h : l ≠ []) :
    setAdminFirst t a l ≠ [] := by
  cases l with
  | nil => exact absurd rfl h
  | cons x xs =>
    by_cases hx : (x.client == t) = true <;> simp [setAdminFirst, hx]

theorem ownerCount_add_client (rd : RoomData) (c : ClientId) :
    ownerCount (rd.add_client c).clients = ownerCount rd.clients := by
  simp [RoomData.add_client, ownerCount, List.countP_append, List.countP_cons]

theorem memClient_add_client {rd : RoomData} {c c' : ClientId} (h : memClient rd.clients c') :
    memClient (rd.add_client c).clients c' := by
  obtain ⟨rc, hrc, hc⟩ := h
  exact ⟨rc, List.mem_append.mpr (Or.inl hrc), hc⟩

theorem memClient_add_client_self (rd : RoomData) (c : ClientId) :
    memClient (rd.add_client c).clients c := by
  exact ⟨_, List.mem_append.mpr (Or.inr (List.mem_singleton.mpr rfl)), rfl⟩

/-! ### Registry map lemmas -/

theorem regGet_insert_self (k : String) (v : RoomRef) (l : List (String × RoomRef)) :
    regGet k (regInsert k v l) = some v := by
  induction l with
  | nil => simp [regInsert, regGet]
  | cons p l ih =>
    by_cases hp : (p.1 == k) = true
    · simpa [regInsert, List.filter_cons, hp] using ih
    · simpa [regInsert, List.filter_cons, hp, regGet] using ih

theorem regGet_insert_ne {k' k : String} (h : k' ≠ k) (v : RoomRef)
    (l : List (String × RoomRef)) : regGet k' (regInsert k v l) = regGet k' l := by
  induction l with
  | nil => simp [regInsert, regGet, Ne.symm h]
  | cons p l ih =>
    by_cases hp : (p.1 == k) = true
    · have hp' : (p.1 == k') = false := by
        simp only [beq_iff_eq] at hp ⊢
        simp [hp, Ne.symm h]
      simp only [regInsert, List.filter_cons, hp, Bool.not_true, if_false] at ih ⊢
      simpa [regGet, hp', Bool.false_eq_true] using ih
    · simp only [regInsert, List.filter_cons, hp, Bool.not_false, if_true] at ih ⊢
      by_cases hq : (p.1 == k') = true
      · simp [regGet, hq]
      · simpa [regGet, hq, Bool.false_eq_true] using ih

theorem regGet_erase_self (k : String) (l : List (String × RoomRef)) :
    regGet k (regErase k l) = none := by
  induction l with
  | nil => rfl
  | cons p l ih =>
    by_cases hp : (p.1 == k) = true
    · simpa [regErase, List.filter_cons, hp] using ih
    · simpa [regErase, List.filter_cons, hp, regGet] using ih

theorem regGet_erase_ne {k' k : String} (h : k' ≠ k) (l : List (String × RoomRef)) :
    regGet k' (regErase k l) = regGet k' l := by
  induction l with
  | nil => rfl
  | cons p l ih =>
    by_cases hp : (p.1 == k) = true
    · have hp' : (p.1 == k') = false := by
        simp only [beq_iff_eq] at hp ⊢
        simp [hp, Ne.symm h]
      simp only [regErase, List.filter_cons, hp, Bool.not_true, if_false] at ih ⊢
      simpa [regGet, hp', Bool.false_eq_true] using ih
    · simp only [regErase, List.filter_cons, hp, Bool.not_false, if_true] at ih ⊢
      by_cases hq : (p.1 == k') = true
      · simp [regGet, hq]
      · simpa [regGet, hq, Bool.false_eq_true] using ih

/-! ### State update projections -/

@[simp] theorem setClientData_roomHeap (s : ServerState) (c : ClientId) (d : ClientData) :
    (setClientData s c d).roomHeap = s.roomHeap := rfl

@[simp] theorem setClientData_rooms (s : ServerState) (c : ClientId) (d : ClientData) :
    (setClientData s c d).rooms = s.rooms := rfl

@[simp] theorem setClientData_clients (s : ServerState) (c : ClientId) (d : ClientData) :
    (setClientData s c d).clients = s.clients := rfl

@[simp] theorem setClientData_nextClient (s : ServerState) (c : ClientId) (d : ClientData) :
    (setClientData s c d).nextClient = s.nextClient := rfl

@[simp] theorem setClientData_nextRef (s : ServerState) (c : ClientId) (d : ClientData) :
    (setClientData s c d).nextRef = s.nextRef := rfl

@[simp] theorem setClientData_clientData (s : ServerState) (c : ClientId) (d : ClientData)
    (x : ClientId) :
    (setClientData s c d).clientData x = if x = c then some d else s.clientData x := rfl

@[simp] theorem setRoom_clientData (s : ServerState) (r : RoomRef) (room : Room) :
    (setRoom s r room).clientData = s.clientData := rfl

@[simp] theorem setRoom_rooms (s : ServerState) (r : RoomRef) (room : Room) :
    (setRoom s r room).rooms = s.rooms := rfl

@[simp] theorem setRoom_clients (s : ServerState) (r : RoomRef) (room : Room) :
    (setRoom s r room).clients = s.clients := rfl

@[simp] theorem setRoom_nextClient (s : ServerState) (r : RoomRef) (room : Room) :
    (setRoom s r room).nextClient = s.nextClient := rfl

@[simp] theorem setRoom_nextRef (s : ServerState) (r : RoomRef) (room : Room) :
    (setRoom s r room).nextRef = s.nextRef := rfl

@[simp] theorem setRoom_roomHeap (s : ServerState) (r : RoomRef) (room : Room) (x : RoomRef) :
    (setRoom s r room).roomHeap x = if x = r then some room else s.roomHeap x := rfl

/-! ### The reachable-state invariant -/

theorem inv_init : Inv initState := by
  refine ⟨?_, ?_, ?_, ?_, ?_, ?_⟩ <;> simp [initState, regGet]

theorem reg_ref_inj {s : ServerState} (hI : Inv s) {id1 id2 : String} {rref : RoomRef}
    (h1 : regGet id1 s.rooms = some rref) (h2 : regGet id2 s.rooms = some rref) :
    id1 = id2 := by
  obtain ⟨room1, hh1, hid1, -, -⟩ := hI.regValid id1 rref h1
  obtain ⟨room2, hh2, hid2, -, -⟩ := hI.regValid id2 rref h2
  rw [hh1] at hh2
  injection hh2 with hh
  rw [← hid1, ← hid2, hh]

theorem inv_setClientData_profile {s : ServerState} {c : ClientId} {cd cd1 : ClientData}
    (hI : Inv s) (hcd : s.clientData c = some cd) (hroom : cd1.room = cd.room) :
    Inv (setClientData s c cd1) := by
  refine ⟨?_, ?_, ?_, ?_, ?_, ?_⟩
  · intro x hx
    simp only [setClientData_clients] at hx
    simp only [setClientData_clientData]
    by_cases hxc : x = c
    · simp [hxc]
    · simp only [if_neg hxc]
      exact hI.clientsHaveData x hx
  · intro x hx
    simp only [setClientData_clientData] at hx
    simp only [setClientData_nextClient]
    by_cases hxc : x = c
    · subst hxc
      exact hI.clientDom x (by simp [hcd])
    · rw [if_neg hxc] at hx
      exact hI.clientDom x hx
  · intro r hr
    simp only [setClientData_roomHeap] at hr
    simp only [setClientData_nextRef]
    exact hI.heapDom r hr
  · intro id rref hreg
    simp only [setClientData_rooms] at hreg
    simp only [setClientData_roomHeap]
    exact hI.regValid id rref hreg
  · intro x cdx rrefx hx hrx
    simp only [setClientData_clientData] at hx
    simp only [setClientData_roomHeap, setClientData_rooms]
    by_cases hxc : x = c
    · subst hxc
      rw [if_pos rfl] at hx
      injection hx with hx'
      subst hx'
      rw [hroom] at hrx
      exact hI.refMember x cd rrefx hcd hrx
    · rw [if_neg hxc] at hx
      exact hI.refMember x cdx rrefx hx hrx
  · intro r room hr
    simp only [setClientData_roomHeap] at hr
    exact hI.metaInv r room hr

theorem inv_changeName {s : ServerState} {c : ClientId} {nm : String} {s1 : ServerState}
    {out : Output} (hI : Inv s) (h : handleCommand s c (.ChangeName nm) = some (s1, out)) :
    Inv s1 := by
  simp only [handleCommand] at h
  split at h
  · simp only [Option.some.injEq, Prod.mk.injEq] at h
    obtain ⟨rfl, -⟩ := h
    exact hI
  · split at h
    · exact Option.noConfusion h
    · rename_i cd hcd
      split at h
      · simp only [Option.some.injEq, Prod.mk.injEq] at h
        obtain ⟨rfl, -⟩ := h
        exact inv_setClientData_profile hI hcd rfl
      · split at h
        · exact Option.noConfusion h
        · simp only [Option.some.injEq, Prod.mk.injEq] at h
          obtain ⟨rfl, -⟩ := h
          exact inv_setClientData_profile hI hcd rfl

theorem ownerCount_singleton_owner (c : ClientId) :
    ownerCount [{ client := c, owner := true, admin := true }] = 1 := rfl

theorem inv_joinRoom_existing {s : ServerState} {c : ClientId} {cd : ClientData} {rid : String}
    {rref : RoomRef} {room : Room} (hI : Inv s) (hcd : s.clientData c = some cd)
    (hreg : regGet rid s.rooms = some rref) (hheap : s.roomHeap rref = some room) :
    Inv (setClientData (setRoom s rref { room with data := room.data.add_client c }) c
      { cd with room := some rref }) := by
  obtain ⟨room', hh', hid', hne', hcount'⟩ := hI.regValid rid rref hreg
  rw [hheap] at hh'
  injection hh' with hh'
  subst hh'
  refine ⟨?_, ?_, ?_, ?_, ?_, ?_⟩
  · intro x hx
    simp only [setClientData_clients, setRoom_clients] at hx
    simp only [setClientData_clientData, setRoom_clientData]
    by_cases hxc : x = c
    · simp [hxc]
    · simp only [if_neg hxc]
      exact hI.clientsHaveData x hx
  · intro x hx
    simp only [setClientData_clientData, setRoom_clientData] at hx
    simp only [setClientData_nextClient, setRoom_nextClient]
    by_cases hxc : x = c
    · subst hxc
      exact hI.clientDom x (by simp [hcd])
    · rw [if_neg hxc] at hx
      exact hI.clientDom x hx
  · intro r hr
    simp only [setClientData_roomHeap, setRoom_roomHeap] at hr
    simp only [setClientData_nextRef, setRoom_nextRef]
    by_cases hrr : r = rref
    · subst hrr
      exact hI.heapDom r (by simp [hheap])
    · rw [if_neg hrr] at hr
      exact hI.heapDom r hr
  · intro id' rref' hreg'
    simp only [setClientData_rooms, setRoom_rooms] at hreg'
    simp only [setClientData_roomHeap, setRoom_roomHeap]
    obtain ⟨room'', hh'', hid'', hne'', hcount''⟩ := hI.regValid id' rref' hreg'
    by_cases hrr : rref' = rref
    · subst hrr
      rw [hheap] at hh''
      injection hh'' with hh''
      subst hh''
      refine ⟨{ room with data := room.data.add_client c }, by simp, hid'', ?_, ?_⟩
      · simp [RoomData.add_client]
      · rw [show ({ room with data := room.data.add_client c } : Room).data = room.data.add_client c from rfl,
          ownerCount_add_client]
        exact hcount''
    · exact ⟨room'', by simp [hrr, hh''], hid'', hne'', hcount''⟩
  · intro x cdx rrefx hx hrx
    simp only [setClientData_clientData, setRoom_clientData] at hx
    simp only [setClientData_roomHeap, setRoom_roomHeap, setClientData_rooms, setRoom_rooms]
    by_cases hxc : x = c
    · subst hxc
      rw [if_pos rfl] at hx
      injection hx with hx'
      subst hx'
      simp only at hrx
      injection hrx with hrx'
      subst hrx'
      refine ⟨{ room with data := room.data.add_client x }, by simp, ?_, ?_⟩
      · exact memClient_add_client_self room.data x
      · rw [show ({ room with data := room.data.add_client x } : Room).room_id = room.room_id from rfl, hid']
        exact hreg
    · rw [if_neg hxc] at hx
      obtain ⟨roomx, hhx, hmx, hregx⟩ := hI.refMember x cdx rrefx hx hrx
      by_cases hrr : rrefx = rref
      · subst hrr
        rw [hheap] at hhx
        injection hhx with hhx
        subst hhx
        refine ⟨{ room with data := room.data.add_client c }, by simp, ?_, ?_⟩
        · exact memClient_add_client hmx
        · exact hregx
      · exact ⟨roomx, by simp [hrr, hhx], hmx, hregx⟩
  · intro r room0 hr0
    simp only [setClientData_roomHeap, setRoom_roomHeap] at hr0
    by_cases hrr : r = rref
    · subst hrr
      rw [if_pos rfl] at hr0
      injection hr0 with hr0
      subst hr0
      exact hI.metaInv r room hheap
    · rw [if_neg hrr] at hr0
      exact hI.metaInv r room0 hr0

theorem inv_joinRoom_fresh {s : ServerState} {c : ClientId} {cd : ClientData} {rid : String}
    (hI : Inv s) (hcd : s.clientData c = some cd) (hreg : regGet rid s.rooms = none) :
    Inv { setClientData
            { s with roomHeap := fun x => if x = s.nextRef then some (Room.new_with_owner rid c)
                                          else s.roomHeap x
                     nextRef := s.nextRef + 1 } c { cd with room := some s.nextRef }
          with rooms := regInsert rid s.nextRef s.rooms } := by
  refine ⟨?_, ?_, ?_, ?_, ?_, ?_⟩
  · intro x hx
    simp only [setClientData_clients] at hx
    simp only [setClientData_clientData]
    by_cases hxc : x = c
    · simp [hxc]
    · simp only [if_neg hxc]
      exact hI.clientsHaveData x hx
  · intro x hx
    simp only [setClientData_clientData] at hx
    simp only [setClientData_nextClient]
    by_cases hxc : x = c
    · subst hxc
      exact hI.clientDom x (by simp [hcd])
    · rw [if_neg hxc] at hx
      exact hI.clientDom x hx
  · intro r hr
    simp only [setClientData_roomHeap] at hr
    simp only [setClientData_nextRef]
    by_cases hrr : r = s.nextRef
    · subst hrr
      exact Nat.lt_succ_self _
    · rw [if_neg hrr] at hr
      exact Nat.lt_succ_of_lt (hI.heapDom r hr)
  · intro id' rref' hreg'
    simp only [setClientData_rooms] at hreg'
    simp only [setClientData_roomHeap]
    by_cases hid : id' = rid
    · subst hid
      rw [regGet_insert_self] at hreg'
      injection hreg' with hreg'
      subst hreg'
      exact ⟨Room.new_with_owner id' c, by simp, rfl, by simp [Room.new_with_owner],
        ownerCount_singleton_owner c⟩
    · rw [regGet_insert_ne hid] at hreg'
      obtain ⟨room'', hh'', hid'', hne'', hcount''⟩ := hI.regValid id' rref' hreg'
      have hlt : rref' < s.nextRef := hI.heapDom rref' (by simp [hh''])
      exact ⟨room'', by simp [Nat.ne_of_lt hlt, hh''], hid'', hne'', hcount''⟩
  · intro x cdx rrefx hx hrx
    simp only [setClientData_clientData] at hx
    simp only [setClientData_roomHeap]
    by_cases hxc : x = c
    · subst hxc
      rw [if_pos rfl] at hx
      injection hx with hx'
      subst hx'
      simp only at hrx
      injection hrx with hrx'
      subst hrx'
      refine ⟨Room.new_with_owner rid x, by simp, ?_, ?_⟩
      · exact ⟨{ client := x, owner := true, admin := true }, by simp [Room.new_with_owner], rfl⟩
      · rw [show (Room.new_with_owner rid x).room_id = rid from rfl]
        exact regGet_insert_self rid s.nextRef s.rooms
    · rw [if_neg hxc] at hx
      obtain ⟨roomx, hhx, hmx, hregx⟩ := hI.refMember x cdx rrefx hx hrx
      have hlt : rrefx < s.nextRef := hI.heapDom rrefx (by simp [hhx])
      have hidne : roomx.room_id ≠ rid := by
        intro hcontra
        rw [hcontra, hreg] at hregx
        exact Option.noConfusion hregx
      refine ⟨roomx, by simp [Nat.ne_of_lt hlt, hhx], hmx, ?_⟩
      rw [regGet_insert_ne hidne]
      exact hregx
  · intro r room0 hr0
    simp only [setClientData_roomHeap] at hr0
    by_cases hrr : r = s.nextRef
    · subst hrr
      rw [if_pos rfl] at hr0
      injection hr0 with hr0
      subst hr0
      exact ⟨rfl, rfl⟩
    · rw [if_neg hrr] at hr0
      exact hI.metaInv r room0 hr0

theorem inv_joinRoom {s : ServerState} {c : ClientId} {rid : String} {s1 : ServerState}
    {out : Output} (hI : Inv s) (h : handleCommand s c (.JoinRoom rid) = some (s1, out)) :
    Inv s1 := by
  simp only [handleCommand] at h
  split at h
  · exact Option.noConfusion h
  · rename_i cd hcd
    split at h
    · simp only [Option.some.injEq, Prod.mk.injEq] at h
      obtain ⟨rfl, -⟩ := h
      exact hI
    · split at h
      · simp only [Option.some.injEq, Prod.mk.injEq] at h
        obtain ⟨rfl, -⟩ := h
        exact hI
      · split at h
        · rename_i rref hreg
          split at h
          · exact Option.noConfusion h
          · rename_i room hheap
            simp only [Option.some.injEq, Prod.mk.injEq] at h
            obtain ⟨rfl, -⟩ := h
            exact inv_joinRoom_existing hI hcd hreg hheap
        · rename_i hreg
          simp only [Option.some.injEq, Prod.mk.injEq] at h
          obtain ⟨rfl, -⟩ := h
          exact inv_joinRoom_fresh hI hcd hreg

theorem inv_setAdmin {s : ServerState} {rref : RoomRef} {room : Room} {target : ClientId}
    {admin : Bool} (hI : Inv s) (hheap : s.roomHeap rref = some room) :
    Inv (setRoom s rref
      { room with data :=
        { room.data with clients := setAdminFirst target admin room.data.clients } }) := by
  refine ⟨?_, ?_, ?_, ?_, ?_, ?_⟩
  · intro x hx
    simp only [setRoom_clients] at hx
    simp only [setRoom_clientData]
    exact hI.clientsHaveData x hx
  · intro x hx
    simp only [setRoom_clientData] at hx
    simp only [setRoom_nextClient]
    exact hI.clientDom x hx
  · intro r hr
    simp only [setRoom_roomHeap] at hr
    simp only [setRoom_nextRef]
    by_cases hrr : r = rref
    · subst hrr
      exact hI.heapDom r (by simp [hheap])
    · rw [if_neg hrr] at hr
      exact hI.heapDom r hr
  · intro id' rref' hreg'
    simp only [setRoom_rooms] at hreg'
    simp only [setRoom_roomHeap]
    obtain ⟨room'', hh'', hid'', hne'', hcount''⟩ := hI.regValid id' rref' hreg'
    by_cases hrr : rref' = rref
    · subst hrr
      rw [hheap] at hh''
      injection hh'' with hh''
      subst hh''
      refine ⟨{ room with data :=
        { room.data with clients := setAdminFirst target admin room.data.clients } },
        by simp, hid'', setAdminFirst_ne_nil hne'', ?_⟩
      show ownerCount (setAdminFirst target admin room.data.clients) = 1
      rw [ownerCount_setAdminFirst]
      exact hcount''
    · exact ⟨room'', by simp [hrr, hh''], hid'', hne'', hcount''⟩
  · intro x cdx rrefx hx hrx
    simp only [setRoom_clientData] at hx
    simp only [setRoom_roomHeap, setRoom_rooms]
    obtain ⟨roomx, hhx, hmx, hregx⟩ := hI.refMember x cdx rrefx hx hrx
    by_cases hrr : rrefx = rref
    · subst hrr
      rw [hheap] at hhx
      injection hhx with hhx
      subst hhx
      exact ⟨{ room with data :=
        { room.data with clients := setAdminFirst target admin room.data.clients } },
        by simp, memClient_setAdminFirst.mpr hmx, hregx⟩
    · exact ⟨roomx, by simp [hrr, hhx], hmx, hregx⟩
  · intro r room0 hr0
    simp only [setRoom_roomHeap] at hr0
    by_cases hrr : r = rref
    · subst hrr
      rw [if_pos rfl] at hr0
      injection hr0 with hr0
      subst hr0
      exact hI.metaInv r room hheap
    · rw [if_neg hrr] at hr0
      exact hI.metaInv r room0 hr0

theorem inv_changeAdmin {s : ServerState} {c target : ClientId} {admin : Bool}
    {s1 : ServerState} {out : Output} (hI : Inv s)
    (h : handleCommand s c (.ChangeClientAdminStatus target admin) = some (s1, out)) :
    Inv s1 := by
  simp only [handleCommand] at h
  split at h
  · exact Option.noConfusion h
  · rename_i cd hcd
    split at h
    · simp only [Option.some.injEq, Prod.mk.injEq] at h
      obtain ⟨rfl, -⟩ := h
      exact hI
    · rename_i rref hroom
      split at h
      · exact Option.noConfusion h
      · rename_i room hheap
        split at h
        · exact Option.noConfusion h
        · rename_i rcc hfind
          split at h
          · simp only [Option.some.injEq, Prod.mk.injEq] at h
            obtain ⟨rfl, -⟩ := h
            exact inv_setAdmin hI hheap
          · simp only [Option.some.injEq, Prod.mk.injEq] at h
            obtain ⟨rfl, -⟩ := h
            exact hI

theorem memClient_newClients {b : Bool} {rest : List RoomClient} {x : ClientId}
    (h : memClient rest x) :
    memClient (if b && !rest.isEmpty then promoteFirst rest else rest) x := by
  split
  · exact memClient_promoteFirst.mpr h
  · exact h

theorem newClients_eq_nil_iff {b : Bool} {rest : List RoomClient} :
    (if b && !rest.isEmpty then promoteFirst rest else rest) = [] ↔ rest = [] := by
  split
  · exact ⟨promoteFirst_eq_nil, fun h => by subst h; rfl⟩
  · exact Iff.rfl

/-- Owner bookkeeping for `remove_client`: the room either becomes empty, or
keeps exactly one owner membership. -/
theorem newClients_cases {b : Bool} {rest : List RoomClient} {l : List RoomClient}
    (hrfa : removeFirstAux c l = some (b, rest)) (hcount : ownerCount l = 1) :
    ((if b && !rest.isEmpty then promoteFirst rest else rest) = [] ∧ rest = []) ∨
    ((if b && !rest.isEmpty then promoteFirst rest else rest) ≠ [] ∧
      ownerCount (if b && !rest.isEmpty then promoteFirst rest else rest) = 1) := by
  have hc := removeFirstAux_ownerCount hrfa
  rw [hcount] at hc
  cases b with
  | false =>
    simp only [Bool.false_eq_true, if_false] at hc
    have hrest : ownerCount rest = 1 := by omega
    right
    simp only [Bool.false_and, Bool.false_eq_true, if_false]
    refine ⟨?_, hrest⟩
    intro hnil
    rw [hnil] at hrest
    simp [ownerCount] at hrest
  | true =>
    have hrest0 : ownerCount rest = 0 := by simp at hc; omega
    cases hrestn : rest with
    | nil =>
      left
      subst hrestn
      simp
    | cons r rs =>
      right
      subst hrestn
      have hne : (r :: rs : List RoomClient) ≠ [] := by simp
      have hcond : (true && !(r :: rs : List RoomClient).isEmpty) = true := by simp
      rw [if_pos hcond]
      exact ⟨promoteFirst_ne_nil hne, ownerCount_promoteFirst hrest0 hne⟩

theorem inv_handle_quit_room {s : ServerState} {c : ClientId} {cd : ClientData}
    {rref : RoomRef} {s1 : ServerState} {out : Output} (hI : Inv s)
    (hcd : s.clientData c = some cd) (hr : cd.room = some rref)
    (h : handle_quit_room s c cd rref = some (s1, out)) : Inv s1 := by
  obtain ⟨room₀, hh₀, hm₀, hreg₀⟩ := hI.refMember c cd rref hcd hr
  obtain ⟨room₁, hh₁, hid₁, hne₁, hcount₁⟩ := hI.regValid room₀.room_id rref hreg₀
  rw [hh₀] at hh₁
  injection hh₁ with hh₁
  subst hh₁
  simp only [handle_quit_room, setClientData_roomHeap] at h
  split at h
  · exact Option.noConfusion h
  · rename_i room hheap
    rw [hh₀] at hheap
    injection hheap with hheap
    subst hheap
    split at h
    · exact Option.noConfusion h
    · rename_i rd hrm
      split at h
      · -- the room became empty: it is deleted from the registry
        rename_i hE
        simp only [Option.some.injEq, Prod.mk.injEq] at h
        obtain ⟨rfl, -⟩ := h
        rw [RoomData.remove_client_eq] at hrm
        obtain ⟨⟨b, rest⟩, hrfa, hfeq⟩ := Option.map_eq_some'.mp hrm
        simp only at hfeq
        subst hfeq
        have hcases := newClients_cases hrfa hcount₁
        have hnewnil : (if b && !rest.isEmpty then promoteFirst rest else rest) = [] := by
          simpa using hE
        have hrestnil : rest = [] := newClients_eq_nil_iff.mp hnewnil
        refine ⟨?_, ?_, ?_, ?_, ?_, ?_⟩
        · intro x hx
          simp only [setRoom_clients, setClientData_clients] at hx
          simp only [setRoom_clientData, setClientData_clientData]
          by_cases hxc : x = c
          · simp [hxc]
          · simp only [if_neg hxc]
            exact hI.clientsHaveData x hx
        · intro x hx
          simp only [setRoom_clientData, setClientData_clientData] at hx
          simp only [setRoom_nextClient, setClientData_nextClient]
          by_cases hxc : x = c
          · subst hxc
            exact hI.clientDom x (by simp [hcd])
          · rw [if_neg hxc] at hx
            exact hI.clientDom x hx
        · intro r hrx
          simp only [setRoom_roomHeap, setClientData_roomHeap] at hrx
          simp only [setRoom_nextRef, setClientData_nextRef]
          by_cases hrr : r = rref
          · subst hrr
            exact hI.heapDom r (by simp [hh₀])
          · rw [if_neg hrr] at hrx
            exact hI.heapDom r hrx
        · intro id' rref' hreg'
          simp only [setRoom_rooms, setClientData_rooms] at hreg'
          simp only [setRoom_roomHeap, setClientData_roomHeap]
          by_cases hid : id' = room₀.room_id
          · subst hid
            rw [regGet_erase_self] at hreg'
            exact Option.noConfusion hreg'
          · rw [regGet_erase_ne hid] at hreg'
            obtain ⟨room'', hh'', hid'', hne'', hcount''⟩ := hI.regValid id' rref' hreg'
            have hrr : rref' ≠ rref := by
              intro hcontra
              subst hcontra
              rw [hh₀] at hh''
              injection hh'' with hh''
              subst hh''
              exact hid (hid''.symm)
            exact ⟨room'', by simp [hrr, hh''], hid'', hne'', hcount''⟩
        · intro x cdx rrefx hx hrx
          simp only [setRoom_clientData, setClientData_clientData] at hx
          simp only [setRoom_roomHeap, setClientData_roomHeap, setRoom_rooms,
            setClientData_rooms]
          by_cases hxc : x = c
          · subst hxc
            rw [if_pos rfl] at hx
            injection hx with hx'
            subst hx'
            exact Option.noConfusion hrx
          · rw [if_neg hxc] at hx
            obtain ⟨roomx, hhx, hmx, hregx⟩ := hI.refMember x cdx rrefx hx hrx
            by_cases hrr : rrefx = rref
            · subst hrr
              rw [hh₀] at hhx
              injection hhx with hhx
              subst hhx
              have hmem := removeFirstAux_memClient hrfa hxc hmx
              rw [hrestnil] at hmem
              obtain ⟨rc, hrc, -⟩ := hmem
              simp at hrc
            · have hidx : roomx.room_id ≠ room₀.room_id := by
                intro hcontra
                rw [hcontra, hreg₀] at hregx
                injection hregx with hregx
                exact hrr hregx.symm
              refine ⟨roomx, by simp [hrr, hhx], hmx, ?_⟩
              rw [regGet_erase_ne hidx]
              exact hregx
        · intro r room0 hr0
          simp only [setRoom_roomHeap, setClientData_roomHeap] at hr0
          by_cases hrr : r = rref
          · subst hrr
            rw [if_pos rfl] at hr0
            injection hr0 with hr0
            subst hr0
            exact hI.metaInv r room₀ hh₀
          · rw [if_neg hrr] at hr0
            exact hI.metaInv r room0 hr0
      · -- the room stays nonempty: registry unchanged, owner transferred
        rename_i hE
        simp only [Option.some.injEq, Prod.mk.injEq] at h
        obtain ⟨rfl, -⟩ := h
        rw [RoomData.remove_client_eq] at hrm
        obtain ⟨⟨b, rest⟩, hrfa, hfeq⟩ := Option.map_eq_some'.mp hrm
        simp only at hfeq
        subst hfeq
        have hcases := newClients_cases hrfa hcount₁
        have hnewne : (if b && !rest.isEmpty then promoteFirst rest else rest) ≠ [] := by
          simpa using hE
        have hkeep := hcases.resolve_left (fun hc => hnewne hc.1)
        refine ⟨?_, ?_, ?_, ?_, ?_, ?_⟩
        · intro x hx
          simp only [setRoom_clients, setClientData_clients] at hx
          simp only [setRoom_clientData, setClientData_clientData]
          by_cases hxc : x = c
          · simp [hxc]
          · simp only [if_neg hxc]
            exact hI.clientsHaveData x hx
        · intro x hx
          simp only [setRoom_clientData, setClientData_clientData] at hx
          simp only [setRoom_nextClient, setClientData_nextClient]
          by_cases hxc : x = c
          · subst hxc
            exact hI.clientDom x (by simp [hcd])
          · rw [if_neg hxc] at hx
            exact hI.clientDom x hx
        · intro r hrx
          simp only [setRoom_roomHeap, setClientData_roomHeap] at hrx
          simp only [setRoom_nextRef, setClientData_nextRef]
          by_cases hrr : r = rref
          · subst hrr
            exact hI.heapDom r (by simp [hh₀])
          · rw [if_neg hrr] at hrx
            exact hI.heapDom r hrx
        · intro id' rref' hreg'
          simp only [setRoom_rooms, setClientData_rooms] at hreg'
          simp only [setRoom_roomHeap, setClientData_roomHeap]
          obtain ⟨room'', hh'', hid'', hne'', hcount''⟩ := hI.regValid id' rref' hreg'
          by_cases hrr : rref' = rref
          · subst hrr
            rw [hh₀] at hh''
            injection hh'' with hh''
            subst hh''
            exact ⟨{ room₀ with data := { room₀.data with
              clients := if b && !rest.isEmpty then promoteFirst rest else rest } },
              by simp, hid'', hkeep.1, hkeep.2⟩
          · exact ⟨room'', by simp [hrr, hh''], hid'', hne'', hcount''⟩
        · intro x cdx rrefx hx hrx
          simp only [setRoom_clientData, setClientData_clientData] at hx
          simp only [setRoom_roomHeap, setClientData_roomHeap, setRoom_rooms,
            setClientData_rooms]
          by_cases hxc : x = c
          · subst hxc
            rw [if_pos rfl] at hx
            injection hx with hx'
            subst hx'
            exact Option.noConfusion hrx
          · rw [if_neg hxc] at hx
            obtain ⟨roomx, hhx, hmx, hregx⟩ := hI.refMember x cdx rrefx hx hrx
            by_cases hrr : rrefx = rref
            · subst hrr
              rw [hh₀] at hhx
              injection hhx with hhx
              subst hhx
              refine ⟨{ room₀ with data := { room₀.data with
                clients := if b && !rest.isEmpty then promoteFirst rest else rest } },
                by simp, ?_, hregx⟩
              exact memClient_newClients (removeFirstAux_memClient hrfa hxc hmx)
            · exact ⟨roomx, by simp [hrr, hhx], hmx, hregx⟩
        · intro r room0 hr0
          simp only [setRoom_roomHeap, setClientData_roomHeap] at hr0
          by_cases hrr : r = rref
          · subst hrr
            rw [if_pos rfl] at hr0
            injection hr0 with hr0
            subst hr0
            exact hI.metaInv r room₀ hh₀
          · rw [if_neg hrr] at hr0
            exact hI.metaInv r room0 hr0

theorem inv_connect {s : ServerState} (hI : Inv s) :
    Inv { s with clients := s.clients ++ [s.nextClient]
                 clientData := fun x => if x = s.nextClient then some { name := none, room := none }
                                        else s.clientData x
                 nextClient := s.nextClient + 1 } := by
  refine ⟨?_, ?_, ?_, ?_, ?_, ?_⟩
  · intro x hx
    simp only [] at hx ⊢
    rcases List.mem_append.mp hx with hx | hx
    · by_cases hxc : x = s.nextClient
      · simp [hxc]
      · simp only [if_neg hxc]
        exact hI.clientsHaveData x hx
    · simp [List.mem_singleton.mp hx]
  · intro x hx
    simp only [] at hx ⊢
    by_cases hxc : x = s.nextClient
    · subst hxc
      exact Nat.lt_succ_self _
    · rw [if_neg hxc] at hx
      exact Nat.lt_succ_of_lt (hI.clientDom x hx)
  · intro r hr
    exact hI.heapDom r hr
  · intro id rref hreg
    exact hI.regValid id rref hreg
  · intro x cdx rrefx hx hrx
    simp only [] at hx
    by_cases hxc : x = s.nextClient
    · rw [if_pos hxc] at hx
      injection hx with hx'
      subst hx'
      simp at hrx
    · rw [if_neg hxc] at hx
      exact hI.refMember x cdx rrefx hx hrx
  · intro r room hr
    exact hI.metaInv r room hr

theorem inv_disconnect {s : ServerState} {c : ClientId} {s1 : ServerState} {out : Output}
    (hI : Inv s) (h : disconnectClient s c = some (s1, out)) : Inv s1 := by
  simp only [disconnectClient] at h
  split at h
  · exact Option.noConfusion h
  · rename_i cd hcd
    split at h
    · rename_i rref hroom
      split at h
      · exact Option.noConfusion h
      · rename_i s2 out2 hq
        simp only [Option.some.injEq, Prod.mk.injEq] at h
        obtain ⟨rfl, -⟩ := h
        have hIq := inv_handle_quit_room hI hcd hroom hq
        refine ⟨?_, hIq.clientDom, hIq.heapDom, hIq.regValid, hIq.refMember, hIq.metaInv⟩
        intro x hx
        simp only [] at hx
        exact hIq.clientsHaveData x (List.mem_of_mem_erase hx)
    · simp only [Option.some.injEq, Prod.mk.injEq] at h
      obtain ⟨rfl, -⟩ := h
      refine ⟨?_, hI.clientDom, hI.heapDom, hI.regValid, hI.refMember, hI.metaInv⟩
      intro x hx
      simp only [] at hx
      exact hI.clientsHaveData x (List.mem_of_mem_erase hx)

theorem inv_handleCommand {s : ServerState} {c : ClientId} {msg : IncomingMessage}
    {s1 : ServerState} {out : Output} (hI : Inv s)
    (h : handleCommand s c msg = some (s1, out)) : Inv s1 := by
  cases msg with
  | Ping =>
    simp only [handleCommand, Option.some.injEq, Prod.mk.injEq] at h
    obtain ⟨rfl, -⟩ := h
    exact hI
  | ChangeName nm => exact inv_changeName hI h
  | JoinRoom rid => exact inv_joinRoom hI h
  | ChangeClientAdminStatus target admin => exact inv_changeAdmin hI h
  | QuitRoom =>
    simp only [handleCommand] at h
    split at h
    · exact Option.noConfusion h
    · rename_i cd hcd
      split at h
      · simp only [Option.some.injEq, Prod.mk.injEq] at h
        obtain ⟨rfl, -⟩ := h
        exact hI
      · rename_i rref hroom
        split at h
        · exact Option.noConfusion h
        · rename_i s2 out2 hq
          simp only [Option.some.injEq, Prod.mk.injEq] at h
          obtain ⟨rfl, -⟩ := h
          exact inv_handle_quit_room hI hcd hroom hq

theorem inv_stepEvent {s : ServerState} {e : Event} {s1 : ServerState} {out : Output}
    (hI : Inv s) (h : stepEvent s e = some (s1, out)) : Inv s1 := by
  cases e with
  | connect =>
    simp only [stepEvent, connectClient, Option.some.injEq, Prod.mk.injEq] at h
    obtain ⟨rfl, -⟩ := h
    exact inv_connect hI
  | command c msg =>
    simp only [stepEvent] at h
    split at h
    · exact inv_handleCommand hI h
    · exact Option.noConfusion h
  | disconnect c =>
    simp only [stepEvent] at h
    split at h
    · exact inv_disconnect hI h
    · exact Option.noConfusion h

/-- Every reachable state satisfies the invariant. -/
theorem reachable_inv {s : ServerState} (h : Reachable s) : Inv s := by
  induction h with
  | init => exact inv_init
  | step hr hstep ih => exact inv_stepEvent ih hstep

theorem removeFirstAux_append {c : ClientId} (pre : List RoomClient) (x : RoomClient)
    (suf : List RoomClient) (hpre : ∀ y ∈ pre, y.client ≠ c) (hxc : x.client = c) :
    removeFirstAux c (pre ++ x :: suf) = some (x.owner, pre ++ suf) := by
  induction pre with
  | nil =>
    rw [List.nil_append, removeFirstAux, if_pos (beq_iff_eq.mpr hxc)]
    rfl
  | cons y ys ih =>
    have hy : (y.client == c) = false :=
      beq_eq_false_iff_ne.mpr (hpre y (List.mem_cons_self y ys))
    rw [List.cons_append, removeFirstAux, if_neg (by simp [hy]),
      ih (fun z hz => hpre z (List.mem_cons_of_mem y hz))]
    rfl

/-! ### Claim theorems -/

/-- C1: the specification demands that a `ChangeClientAdminStatus` issued by a
non-owner aborts with `Forbidden` and mutates nothing.  The code sends the
`Forbidden` error but then continues: in the reachable state `stC1` (owner 0
with admin flag set, plain member 1), client 1 revoking client 0's admin flag
yields both the `Forbidden` error and a `Success` reply, flips client 0's
admin flag from true to false, and broadcasts the mutated snapshot. -/
theorem c1_forbidden_not_aborted :
    runScript evsC1 = some stC1 ∧
    stepEvent stC1 (.command 1 (.ChangeClientAdminStatus 0 false)) = some c1res ∧
    (1, OutgoingMessage.Error ErrorKind.Forbidden none) ∈ c1res.2 ∧
    (1, OutgoingMessage.Success) ∈ c1res.2 ∧
    ((stC1.roomHeap 0).map fun room => room.data.clients.map fun rc => (rc.client, rc.owner, rc.admin))
      = some [(0, true, true), (1, false, false)] ∧
    ((c1res.1.roomHeap 0).map fun room => room.data.clients.map fun rc => (rc.client, rc.owner, rc.admin))
      = some [(0, true, false), (1, false, false)] ∧
    (0, OutgoingMessage.RoomChanged
      { clients := [{ name := some "Alice", uid := 0, owner := true, admin := false },
                    { name := some "Bobby", uid := 1, owner := false, admin := false }],
        page_url := none, allow_stop_due_to_video_loading := true }) ∈ c1res.2 := by
  refine ⟨rfl, rfl, by decide, by decide, rfl, rfl, by decide⟩

/-- C2 (counterexample): it is not the case that in every reachable state a
client references a registered room exactly when that room's membership list
contains an entry for it: after client 0 creates room "abc" and then, still a
member of "abc", creates room "xyz", room "abc" still lists client 0 while
client 0's reference points at "xyz". -/
theorem c2_counterexample : ¬ (∀ s, Reachable s → clientRoomAgreement s) := by
  intro hAll
  have hre : Reachable stC2x := reachable_runScript evsC2x rfl
  have h := hAll stC2x hre 0 { name := some "Alice", room := some 1 } rfl ("abc", 0)
    (by decide) roomAbcSolo rfl
  have hmem : memClient [{ client := 0, owner := true, admin := true }] 0 :=
    ⟨_, List.mem_singleton.mpr rfl, rfl⟩
  have hbad := h.mpr hmem
  exact absurd hbad (by decide)

/-- C2 (amended): one direction of the agreement does hold in every reachable
state: a client whose room reference is non-null references a live room whose
membership list contains an entry for it, and that room is registered under
its id.  (The converse fails: a membership may survive in a room the client no
longer references, see the counterexample.) -/
theorem c2_room_ref_implies_membership (s : ServerState) (c : ClientId) (cd : ClientData)
    (rref : RoomRef) (hs : Reachable s) (hcd : s.clientData c = some cd)
    (hroom : cd.room = some rref) :
    ∃ room, s.roomHeap rref = some room ∧ memClient room.data.clients c ∧
      regGet room.room_id s.rooms = some rref :=
  (reachable_inv hs).refMember c cd rref hcd hroom

theorem c2_room_ref_implies_membership_witness :
    ∃ room, stC2w.roomHeap 0 = some room ∧ memClient room.data.clients 0 ∧
      regGet room.room_id stC2w.rooms = some 0 :=
  c2_room_ref_implies_membership stC2w 0 { name := some "Alice", room := some 0 } 0
    (reachable_runScript evsC2w rfl) rfl rfl

/-- C3 (counterexample): `add_client` does not fail when the client already
has a membership, so a (room, client) pair may hold two memberships: after
client 0 creates "abc" and joins "abc" again, room "abc" holds two membership
entries for client 0. -/
theorem c3_counterexample : ¬ (∀ s, Reachable s → atMostOneMembership s) := by
  intro hAll
  have hre : Reachable stC3x := reachable_runScript evsC3x rfl
  have h := hAll stC3x hre ("abc", 0) (by decide) roomAbcDup rfl 0
  exact absurd h (by decide)

/-- C3 (amended): `RoomData::add_client` unconditionally appends a membership
with `owner = false, admin = false`, even when the client already has a
membership in the room; consequently a reachable state can hold two
memberships for the same (room, client) pair. -/
theorem c3_add_client_never_fails :
    (∀ (rd : RoomData) (c : ClientId),
      (rd.add_client c).clients
        = rd.clients ++ [{ client := c, owner := false, admin := false }]) ∧
    (∃ s, Reachable s ∧ ∃ p ∈ s.rooms, ∃ room, s.roomHeap p.2 = some room ∧
      ∃ c, 2 ≤ room.data.clients.countP (fun rc => rc.client == c)) := by
  refine ⟨fun rd c => rfl,
    ⟨stC3x, reachable_runScript evsC3x rfl, ("abc", 0), by decide, _, rfl, 0, by decide⟩⟩

/-- C4: in every reachable state, every room reachable through the registry
has a nonempty membership list with exactly one owner membership; in
particular no room with an empty membership list is present in the registry. -/
theorem c4_registry_owner_invariant (s : ServerState) (hs : Reachable s) (id : String)
    (rref : RoomRef) (room : Room) (hreg : regGet id s.rooms = some rref)
    (hheap : s.roomHeap rref = some room) :
    room.data.clients ≠ [] ∧ ownerCount room.data.clients = 1 := by
  obtain ⟨room', hh', -, hne', hcount'⟩ := (reachable_inv hs).regValid id rref hreg
  rw [hheap] at hh'
  injection hh' with e
  subst e
  exact ⟨hne', hcount'⟩

theorem c4_registry_owner_invariant_witness :
    roomAbcSolo.data.clients ≠ [] ∧ ownerCount roomAbcSolo.data.clients = 1 :=
  c4_registry_owner_invariant stC4w (reachable_runScript evsC4w rfl) "abc" 0
    roomAbcSolo rfl rfl

/-- C5: when `remove_client` removes the membership that had `owner = true`
(the first membership of the departing client) and the room stays nonempty,
the membership now at list position 0 is promoted to owner, while the admin
flags and the client ids of all remaining memberships are unchanged. -/
theorem c5_owner_removal_promotes_first (rd : RoomData) (c : ClientId)
    (pre suf : List RoomClient) (x : RoomClient)
    (hsplit : rd.clients = pre ++ x :: suf)
    (hpre : ∀ y ∈ pre, y.client ≠ c)
    (hxc : x.client = c) (hxo : x.owner = true)
    (hne : pre ++ suf ≠ []) :
    ∃ rd', rd.remove_client c = some rd' ∧
      rd'.clients = promoteFirst (pre ++ suf) ∧
      (rd'.clients.head?.map fun rc => rc.owner) = some true ∧
      rd'.clients.map (fun rc => rc.admin) = (pre ++ suf).map (fun rc => rc.admin) ∧
      rd'.clients.map (fun rc => rc.client) = (pre ++ suf).map (fun rc => rc.client) := by
  have hrfa := removeFirstAux_append pre x suf hpre hxc
  rw [← hsplit] at hrfa
  have hemp : ((pre ++ suf).isEmpty) = false := by simpa using hne
  have hcond : (x.owner && !(pre ++ suf).isEmpty) = true := by rw [hxo, hemp]; rfl
  refine ⟨{ rd with clients := promoteFirst (pre ++ suf) }, ?_, rfl, ?_, ?_, ?_⟩
  · rw [RoomData.remove_client_eq, hrfa]
    simp only [Option.map_some', hcond, if_true]
  · cases hps : pre ++ suf with
    | nil => exact absurd hps hne
    | cons hd tl => simp [promoteFirst]
  · exact promoteFirst_map_admin _
  · exact promoteFirst_map_client _

theorem c5_owner_removal_promotes_first_witness :
    ∃ rd', c5wRoom.remove_client 5 = some rd' ∧
      rd'.clients = promoteFirst ([] ++ [c5wKept]) ∧
      (rd'.clients.head?.map fun rc => rc.owner) = some true ∧
      rd'.clients.map (fun rc => rc.admin)
        = ([] ++ [c5wKept]).map (fun rc : RoomClient => rc.admin) ∧
      rd'.clients.map (fun rc => rc.client)
        = ([] ++ [c5wKept]).map (fun rc : RoomClient => rc.client) :=
  c5_owner_removal_promotes_first c5wRoom 5 [] [c5wKept] c5wRemoved
    rfl (by simp) rfl rfl (by simp)

/-- C8: a `JoinRoom` issued by a client whose display name is unset is
rejected with `ClientNameNotSet`, the state is returned unchanged: no room is
created or joined and no reference is set. -/
theorem c8_join_without_name_rejected (s : ServerState) (c : ClientId) (cd : ClientData)
    (rid : String) (hc : c ∈ s.clients) (hcd : s.clientData c = some cd)
    (hname : cd.name = none) :
    stepEvent s (.command c (.JoinRoom rid)) = some (s, [(c, .Error .ClientNameNotSet none)]) := by
  simp only [stepEvent, if_pos hc, handleCommand, hcd, hname, Option.isNone_none, if_true]

theorem c8_join_without_name_rejected_witness :
    stepEvent stC8w (.command 0 (.JoinRoom "abc"))
      = some (stC8w, [(0, .Error .ClientNameNotSet none)]) :=
  c8_join_without_name_rejected stC8w 0 { name := none, room := none } "abc"
    (by decide) rfl rfl

/-- C10: in every reachable state every live room still has the metadata it
was created with by `Room::new_with_owner`: `page_url = none` and
`allow_stop_due_to_video_loading = true`; no command changes these fields. -/
theorem c10_room_metadata_constant (s : ServerState) (hs : Reachable s) (rref : RoomRef)
    (room : Room) (hheap : s.roomHeap rref = some room) :
    room.data.page_url = none ∧ room.data.allow_stop_due_to_video_loading = true :=
  (reachable_inv hs).metaInv rref room hheap

/-- C6: a `JoinRoom` whose preconditions hold (sender connected, name set,
room id longer than 2 bytes) creates a fresh room owned by the joining client
with `owner = true, admin = true` when the id is unregistered, and otherwise
appends a membership with `owner = false, admin = false` to the existing room;
in both cases the client's room reference is set to the joined room. -/
theorem c6_joinRoom_effect (s : ServerState) (c : ClientId) (cd : ClientData) (rid : String)
    (hc : c ∈ s.clients) (hcd : s.clientData c = some cd)
    (hname : cd.name.isNone = false) (hlen : 2 < rustLen rid) :
    (regGet rid s.rooms = none →
      ∃ s1 out, stepEvent s (.command c (.JoinRoom rid)) = some (s1, out) ∧
        s1.roomHeap s.nextRef = some (Room.new_with_owner rid c) ∧
        (Room.new_with_owner rid c).data.clients
          = [{ client := c, owner := true, admin := true }] ∧
        regGet rid s1.rooms = some s.nextRef ∧
        s1.clientData c = some { cd with room := some s.nextRef }) ∧
    (∀ rref room, regGet rid s.rooms = some rref → s.roomHeap rref = some room →
      ∃ s1 out, stepEvent s (.command c (.JoinRoom rid)) = some (s1, out) ∧
        s1.roomHeap rref = some { room with data := { room.data with
          clients := room.data.clients ++ [{ client := c, owner := false, admin := false }] } } ∧
        s1.clientData c = some { cd with room := some rref }) := by
  have hlen' : ¬(rustLen rid ≤ 2) := by omega
  constructor
  · intro hreg
    have hstep : stepEvent s (.command c (.JoinRoom rid))
        = some ({ setClientData
              { s with roomHeap := fun x => if x = s.nextRef then some (Room.new_with_owner rid c)
                                            else s.roomHeap x
                       nextRef := s.nextRef + 1 } c { cd with room := some s.nextRef }
            with rooms := regInsert rid s.nextRef s.rooms },
          (c, .Success) :: broadcast_room_change
            (setClientData
              { s with roomHeap := fun x => if x = s.nextRef then some (Room.new_with_owner rid c)
                                            else s.roomHeap x
                       nextRef := s.nextRef + 1 } c { cd with room := some s.nextRef })
            (Room.new_with_owner rid c).data) := by
      simp only [stepEvent, if_pos hc, handleCommand, hcd, hname, Bool.false_eq_true, if_false,
        hlen', hreg]
      rfl
    refine ⟨_, _, hstep, by simp, rfl, ?_, by simp⟩
    exact regGet_insert_self rid s.nextRef s.rooms
  · intro rref room hreg hheap
    have hstep : stepEvent s (.command c (.JoinRoom rid))
        = some (setClientData (setRoom s rref { room with data := room.data.add_client c }) c
            { cd with room := some rref },
          (c, .Success) :: broadcast_room_change
            (setClientData (setRoom s rref { room with data := room.data.add_client c }) c
              { cd with room := some rref })
            ({ room with data := room.data.add_client c } : Room).data) := by
      simp only [stepEvent, if_pos hc, handleCommand, hcd, hname, Bool.false_eq_true, if_false,
        hlen', hreg, hheap]
    refine ⟨_, _, hstep, by simp [RoomData.add_client], by simp⟩


theorem c6_joinRoom_effect_witness :
    ∃ s1 out, stepEvent stC6w (.command 0 (.JoinRoom "abc")) = some (s1, out) ∧
      s1.roomHeap stC6w.nextRef = some (Room.new_with_owner "abc" 0) ∧
      (Room.new_with_owner "abc" 0).data.clients
        = [{ client := 0, owner := true, admin := true }] ∧
      regGet "abc" s1.rooms = some stC6w.nextRef ∧
      s1.clientData 0 = some { name := some "Alice", room := some stC6w.nextRef } :=
  (c6_joinRoom_effect stC6w 0 { name := some "Alice", room := none } "abc"
    (by decide) rfl rfl (by decide)).1 rfl

/-- C7 (counterexample): a 1-character name is not necessarily rejected:
the check compares the UTF-8 byte length against 2, so the 1-character,
3-byte name of the trace below is accepted and stored. -/
theorem c7_counterexample :
    ¬ (∀ (s : ServerState) (c : ClientId) (nm : String) (s1 : ServerState) (out : Output),
        Reachable s → c ∈ s.clients → (nm.length = 1 ∨ nm.length = 2) →
        stepEvent s (.command c (.ChangeName nm)) = some (s1, out) →
        s1.clientData c = s.clientData c ∧ out = [(c, .Error .ClientNameTooShort none)]) := by
  intro hAll
  have hre : Reachable stC7x := reachable_runScript evsC7x rfl
  have h := hAll stC7x 0 "€" _ _ hre (by decide) (Or.inl (by decide)) rfl
  exact absurd h.2 (by decide)

/-- C7 (amended): `ChangeName` is gated on the UTF-8 byte length of the name,
not its character count: a name of byte length at most 2 is rejected with
`ClientNameTooShort` and the state is unchanged, while a name of byte length
greater than 2 (which includes some 1- or 2-character names) is accepted and
stored as the client's display name, with a `Success` reply first. -/
theorem c7_changeName_byte_length (s : ServerState) (c : ClientId) (nm : String)
    (hs : Reachable s) (hc : c ∈ s.clients) :
    (rustLen nm ≤ 2 →
      stepEvent s (.command c (.ChangeName nm))
        = some (s, [(c, .Error .ClientNameTooShort none)])) ∧
    (2 < rustLen nm →
      ∃ cd s1 out, s.clientData c = some cd ∧
        stepEvent s (.command c (.ChangeName nm)) = some (s1, out) ∧
        s1.clientData c = some { cd with name := some nm } ∧
        out.head? = some (c, .Success)) := by
  constructor
  · intro hle
    simp only [stepEvent, if_pos hc, handleCommand, if_pos hle]
  · intro hgt
    obtain ⟨cd, hcd⟩ := Option.isSome_iff_exists.mp ((reachable_inv hs).clientsHaveData c hc)
    have hlen' : ¬(rustLen nm ≤ 2) := by omega
    cases hroomx : cd.room with
    | none =>
      have hstep : stepEvent s (.command c (.ChangeName nm))
          = some (setClientData s c { cd with name := some nm }, [(c, .Success)]) := by
        simp only [stepEvent, if_pos hc, handleCommand, hcd, hlen', if_false, hroomx]
      exact ⟨cd, _, _, hcd, hstep, by simp, rfl⟩
    | some rref =>
      obtain ⟨room, hh, -, -⟩ := (reachable_inv hs).refMember c cd rref hcd hroomx
      have hstep : stepEvent s (.command c (.ChangeName nm))
          = some (setClientData s c { cd with name := some nm },
            (c, .Success) :: broadcast_room_change
              (setClientData s c { cd with name := some nm }) room.data) := by
        simp only [stepEvent, if_pos hc, handleCommand, hcd, hlen', if_false, hroomx,
          setClientData_roomHeap, hh]
      exact ⟨cd, _, _, hcd, hstep, by simp, rfl⟩

theorem c7_changeName_byte_length_witness :
    stepEvent stC7w (.command 0 (.ChangeName "ab"))
      = some (stC7w, [(0, .Error .ClientNameTooShort none)]) :=
  (c7_changeName_byte_length stC7w 0 "ab" (reachable_runScript evsC7w rfl) (by decide)).1
    (by decide)

/-- C9: a `QuitRoom` from a client who is in a room removes the first
membership of that client, clears the client's room reference, promotes the
membership now at position 0 when the removed one was owner and members
remain, deletes the room from the registry exactly when the membership list
became empty (and then sends no broadcast), and otherwise broadcasts the
post-mutation snapshot to exactly the remaining members, before the `Success`
reply to the quitter. -/
theorem c9_quitRoom_effect (s : ServerState) (c : ClientId) (cd : ClientData) (rref : RoomRef)
    (hs : Reachable s) (hc : c ∈ s.clients) (hcd : s.clientData c = some cd)
    (hroom : cd.room = some rref) :
    ∃ room b rest s1 out,
      s.roomHeap rref = some room ∧
      removeFirstAux c room.data.clients = some (b, rest) ∧
      stepEvent s (.command c .QuitRoom) = some (s1, out) ∧
      s1.clientData c = some { cd with room := none } ∧
      s1.roomHeap rref = some { room with data := { room.data with
        clients := if b && !rest.isEmpty then promoteFirst rest else rest } } ∧
      ((if b && !rest.isEmpty then promoteFirst rest else rest) = [] →
        regGet room.room_id s1.rooms = none ∧ out = [(c, .Success)]) ∧
      ((if b && !rest.isEmpty then promoteFirst rest else rest) ≠ [] →
        regGet room.room_id s1.rooms = some rref ∧
        out = broadcast_room_change s1 { room.data with
          clients := if b && !rest.isEmpty then promoteFirst rest else rest }
          ++ [(c, .Success)]) := by
  obtain ⟨room, hh, hm, hreg⟩ := (reachable_inv hs).refMember c cd rref hcd hroom
  obtain ⟨⟨b, rest⟩, hrfa⟩ := removeFirstAux_isSome_of_mem hm
  have hrm : room.data.remove_client c = some { room.data with
      clients := if b && !rest.isEmpty then promoteFirst rest else rest } := by
    rw [RoomData.remove_client_eq, hrfa]
    rfl
  by_cases hnil : (if b && !rest.isEmpty then promoteFirst rest else rest) = []
  · have hstep : stepEvent s (.command c .QuitRoom)
        = some ({ setRoom (setClientData s c { cd with room := none }) rref
              { room with data := { room.data with
                clients := if b && !rest.isEmpty then promoteFirst rest else rest } }
            with rooms := regErase room.room_id s.rooms },
          [] ++ [(c, .Success)]) := by
      simp only [stepEvent, if_pos hc, handleCommand, hcd, hroom, handle_quit_room,
        setClientData_roomHeap, hh, hrm, hnil, List.isEmpty_nil, if_true]
      rfl
    refine ⟨room, b, rest, _, _, hh, hrfa, hstep, by simp, by simp, ?_, ?_⟩
    · intro _
      exact ⟨regGet_erase_self room.room_id s.rooms, rfl⟩
    · intro hne
      exact absurd hnil hne
  · have hE : (if b && !rest.isEmpty then promoteFirst rest else rest).isEmpty = false := by
      simpa using hnil
    have hstep : stepEvent s (.command c .QuitRoom)
        = some (setRoom (setClientData s c { cd with room := none }) rref
            { room with data := { room.data with
              clients := if b && !rest.isEmpty then promoteFirst rest else rest } },
          broadcast_room_change
            (setRoom (setClientData s c { cd with room := none }) rref
              { room with data := { room.data with
                clients := if b && !rest.isEmpty then promoteFirst rest else rest } })
            { room.data with
              clients := if b && !rest.isEmpty then promoteFirst rest else rest }
            ++ [(c, .Success)]) := by
      simp only [stepEvent, if_pos hc, handleCommand, hcd, hroom, handle_quit_room,
        setClientData_roomHeap, hh, hrm, hE, Bool.false_eq_true, if_false]
    refine ⟨room, b, rest, _, _, hh, hrfa, hstep, by simp, by simp, ?_, ?_⟩
    · intro hzero
      exact absurd hzero hnil
    · intro _
      exact ⟨hreg, rfl⟩

theorem c9_quitRoom_effect_witness :
    ∃ room b rest s1 out,
      stC9w.roomHeap 0 = some room ∧
      removeFirstAux 0 room.data.clients = some (b, rest) ∧
      stepEvent stC9w (.command 0 .QuitRoom) = some (s1, out) ∧
      s1.clientData 0 = some { name := some "Alice", room := none } ∧
      s1.roomHeap 0 = some { room with data := { room.data with
        clients := if b && !rest.isEmpty then promoteFirst rest else rest } } ∧
      ((if b && !rest.isEmpty then promoteFirst rest else rest) = [] →
        regGet room.room_id s1.rooms = none ∧ out = [(0, .Success)]) ∧
      ((if b && !rest.isEmpty then promoteFirst rest else rest) ≠ [] →
        regGet room.room_id s1.rooms = some 0 ∧
        out = broadcast_room_change s1 { room.data with
          clients := if b && !rest.isEmpty then promoteFirst rest else rest }
          ++ [(0, .Success)]) :=
  c9_quitRoom_effect stC9w 0 { name := some "Alice", room := some 0 } 0
    (reachable_runScript evsC9w rfl) (by decide) rfl rfl

theorem c10_room_metadata_constant_witness :
    roomAbcSolo.data.page_url = none ∧
    roomAbcSolo.data.allow_stop_due_to_video_loading = true :=
  c10_room_metadata_constant stC10w (reachable_runScript evsC10w rfl) 0 roomAbcSolo rfl

end SentSync
